import Mathlib

/-!
Verification of the GenAIComps adapter components.

Shallow embedding of two source files:
  * comps/rerankings/src/integrations/videoqna.py
    (get_top_doc, find_timestamp_from_video, format_video_name,
     OpeaVideoReranking.invoke)
  * comps/llms/src/text-generation/integrations/tgi_llm.py
    (TGILLM.align_input for the LLMParamsDoc branch, the chat-message
     normalization step of TGILLM.invoke, stream_generator)

Python strings are modelled as List Char where character-level reasoning is
needed (video names, regular-expression matching) and as String elsewhere.
Python dicts that accumulate counts are modelled as association lists in
key-insertion order, matching the insertion-ordered dict semantics the code
relies on.
-/

set_option maxRecDepth 4000
set_option linter.unusedSectionVars false

variable {α : Type} [DecidableEq α]

/-! ## videoqna.py: get_top_doc -/

/-- One step of the vote-accumulation loop of get_top_doc: the Python dict
update `hit_score[video_name] += 1` (with insertion of a fresh key at the end
when absent), on an association list in key-insertion order. -/
def bump : List (α × Nat) → α → List (α × Nat)
  | [], v => [(v, 1)]
  | (k, c) :: rest, v => if k = v then (k, c + 1) :: rest else (k, c) :: bump rest v

/-- The hit_score dict of get_top_doc after the loop over videos. -/
def tally (videos : List α) : List (α × Nat) := videos.foldl bump []

/-- Insertion step of a stable descending sort by the count component:
an element is placed before the first earlier-sorted element of strictly
smaller count, so equal counts keep their original relative order.  This
models the stability guarantee of the Python sorted builtin used with
key -count. -/
def insertD (x : α × Nat) : List (α × Nat) → List (α × Nat)
  | [] => [x]
  | y :: ys => if y.2 ≤ x.2 then x :: y :: ys else y :: insertD x ys

/-- Stable descending sort by count: models
`sorted(hit_score.items(), key=lambda item: -item[1])`. -/
def sortDesc : List (α × Nat) → List (α × Nat)
  | [] => []
  | x :: xs => insertD x (sortDesc xs)

/-- get_top_doc: tally one vote per appearance, sort identifiers by
descending vote count (stable), keep the first top_n keys.
The videos-is-None early return of the Python code is not reachable from
invoke (a list comprehension is always a list) and is not modelled. -/
def get_top_doc (top_n : Nat) (videos : List α) : List α :=
  ((sortDesc (tally videos)).map Prod.fst).take top_n

/-- Number of occurrences of a in a list (spec-side helper used to state what
one vote per appearance means). -/
def countOcc (a : α) : List α → Nat
  | [] => 0
  | b :: l => (if b = a then 1 else 0) + countOcc a l

/-- Index of the first occurrence of a in a list (length when absent);
spec-side helper used to state the first-appearance tie-break. -/
def firstIdx (a : α) : List α → Nat
  | [] => 0
  | b :: l => if b = a then 0 else firstIdx a l + 1

/-- Value of key a in an association list, 0 when absent. -/
def lookupZ (a : α) : List (α × Nat) → Nat
  | [] => 0
  | p :: l => if p.1 = a then p.2 else lookupZ a l

/-- Keys added (in order of first appearance) by the accumulation loop when it
starts with the keys of seen already present. -/
def newKeys : List α → List α → List α
  | _, [] => []
  | seen, v :: vs => if v ∈ seen then newKeys seen vs else v :: newKeys (seen ++ [v]) vs

theorem bump_keys (acc : List (α × Nat)) (v : α) :
    (bump acc v).map Prod.fst =
      if v ∈ acc.map Prod.fst then acc.map Prod.fst else acc.map Prod.fst ++ [v] := by
  induction acc with
  | nil => simp [bump]
  | cons p rest ih =>
    obtain ⟨k, c⟩ := p
    by_cases hkv : k = v
    · subst hkv
      simp [bump]
    · simp only [bump, if_neg hkv, List.map_cons]
      rw [ih]
      have hvk : ¬ v = k := fun h => hkv h.symm
      by_cases hv : v ∈ rest.map Prod.fst
      · simp [List.mem_cons, hv]
      · simp [List.mem_cons, hv, hvk]

theorem bump_lookup (acc : List (α × Nat)) (v a : α) :
    lookupZ a (bump acc v) = lookupZ a acc + (if v = a then 1 else 0) := by
  induction acc with
  | nil =>
    simp only [bump, lookupZ]
    by_cases h : v = a <;> simp [h]
  | cons p rest ih =>
    obtain ⟨k, c⟩ := p
    by_cases hkv : k = v
    · subst hkv
      by_cases hka : k = a
      · subst hka; simp [bump, lookupZ]
      · simp [bump, lookupZ, hka]
    · simp only [bump, if_neg hkv, lookupZ]
      by_cases hka : k = a
      · subst hka
        have : ¬ v = k := fun h => hkv h.symm
        simp [this]
      · simp [hka, ih]

theorem tally_keys (vs : List α) :
    ∀ acc : List (α × Nat),
      (List.foldl bump acc vs).map Prod.fst = acc.map Prod.fst ++ newKeys (acc.map Prod.fst) vs := by
  induction vs with
  | nil => intro acc; simp [newKeys]
  | cons v vs ih =>
    intro acc
    simp only [List.foldl_cons]
    rw [ih (bump acc v), bump_keys]
    by_cases hv : v ∈ acc.map Prod.fst
    · simp [newKeys, hv]
    · simp [newKeys, hv, List.append_assoc]

theorem tally_lookup (vs : List α) :
    ∀ (acc : List (α × Nat)) (a : α),
      lookupZ a (List.foldl bump acc vs) = lookupZ a acc + countOcc a vs := by
  induction vs with
  | nil => intro acc a; simp [countOcc]
  | cons v vs ih =>
    intro acc a
    simp only [List.foldl_cons, countOcc]
    rw [ih (bump acc v) a, bump_lookup]
    omega

theorem newKeys_not_seen (vs : List α) :
    ∀ (seen : List α) (x : α), x ∈ newKeys seen vs → x ∉ seen := by
  induction vs with
  | nil => intro seen x h; simp [newKeys] at h
  | cons v vs ih =>
    intro seen x h
    by_cases hv : v ∈ seen
    · exact ih seen x (by simpa [newKeys, hv] using h)
    · simp only [newKeys, if_neg hv, List.mem_cons] at h
      rcases h with rfl | h
      · exact hv
      · intro hx
        exact ih (seen ++ [v]) x h (by simp [hx])

theorem newKeys_subset (vs : List α) :
    ∀ (seen : List α) (x : α), x ∈ newKeys seen vs → x ∈ vs := by
  induction vs with
  | nil => intro seen x h; simp [newKeys] at h
  | cons v vs ih =>
    intro seen x h
    by_cases hv : v ∈ seen
    · exact List.mem_cons_of_mem v (ih seen x (by simpa [newKeys, hv] using h))
    · simp only [newKeys, if_neg hv, List.mem_cons] at h
      rcases h with rfl | h
      · exact List.mem_cons_self x vs
      · exact List.mem_cons_of_mem v (ih (seen ++ [v]) x h)

theorem newKeys_nodup (vs : List α) :
    ∀ seen : List α, (newKeys seen vs).Nodup := by
  induction vs with
  | nil => intro seen; simp [newKeys]
  | cons v vs ih =>
    intro seen
    by_cases hv : v ∈ seen
    · simpa [newKeys, hv] using ih seen
    · simp only [newKeys, if_neg hv, List.nodup_cons]
      refine ⟨fun hmem => ?_, ih (seen ++ [v])⟩
      exact newKeys_not_seen vs (seen ++ [v]) v hmem (by simp)

theorem newKeys_firstIdx (vs : List α) :
    ∀ seen : List α,
      (newKeys seen vs).Pairwise fun a b => firstIdx a vs < firstIdx b vs := by
  induction vs with
  | nil => intro seen; simp [newKeys]
  | cons v vs ih =>
    intro seen
    by_cases hv : v ∈ seen
    · simp only [newKeys, if_pos hv]
      refine ((ih seen).imp_of_mem ?_)
      intro a b ha hb hab
      have hva : ¬ v = a := fun h => (newKeys_not_seen vs seen a ha) (h ▸ hv)
      have hvb : ¬ v = b := fun h => (newKeys_not_seen vs seen b hb) (h ▸ hv)
      simp only [firstIdx, if_neg hva, if_neg hvb]
      omega
    · simp only [newKeys, if_neg hv, List.pairwise_cons]
      constructor
      · intro b hb
        have hvb : ¬ v = b := by
          intro h
          exact (newKeys_not_seen vs (seen ++ [v]) b hb) (by simp [h])
        have h1 : firstIdx v (v :: vs) = 0 := by simp [firstIdx]
        have h2 : firstIdx b (v :: vs) = firstIdx b vs + 1 := by simp [firstIdx, hvb]
        omega
      · refine ((ih (seen ++ [v])).imp_of_mem ?_)
        intro a b ha hb hab
        have hva : ¬ v = a := by
          intro h
          exact (newKeys_not_seen vs (seen ++ [v]) a ha) (by simp [h])
        have hvb : ¬ v = b := by
          intro h
          exact (newKeys_not_seen vs (seen ++ [v]) b hb) (by simp [h])
        simp only [firstIdx, if_neg hva, if_neg hvb]
        omega

theorem lookupZ_mem (l : List (α × Nat)) (p : α × Nat)
    (hnd : (l.map Prod.fst).Nodup) (hp : p ∈ l) : lookupZ p.1 l = p.2 := by
  induction l with
  | nil => simp at hp
  | cons q l ih =>
    simp only [List.map_cons, List.nodup_cons] at hnd
    rcases List.mem_cons.mp hp with rfl | hp
    · simp [lookupZ]
    · have hne : q.1 ≠ p.1 := by
        intro h
        exact hnd.1 (h ▸ List.mem_map_of_mem Prod.fst hp)
      simp [lookupZ, hne, ih hnd.2 hp]

theorem tally_mem_count (vs : List α) (p : α × Nat) (hp : p ∈ tally vs) :
    p.2 = countOcc p.1 vs := by
  have hkeys : (tally vs).map Prod.fst = newKeys ([] : List α) vs := by
    simpa using tally_keys vs []
  have hnd : ((tally vs).map Prod.fst).Nodup := by
    rw [hkeys]; exact newKeys_nodup vs []
  have := lookupZ_mem (tally vs) p hnd hp
  have hl : lookupZ p.1 (tally vs) = countOcc p.1 vs := by
    simpa [lookupZ] using tally_lookup vs [] p.1
  omega

theorem insertD_mem (x : α × Nat) (ys : List (α × Nat)) (z : α × Nat) :
    z ∈ insertD x ys ↔ z = x ∨ z ∈ ys := by
  induction ys with
  | nil => simp [insertD]
  | cons y ys ih =>
    by_cases h : y.2 ≤ x.2
    · simp only [insertD, if_pos h, List.mem_cons]
    · simp only [insertD, if_neg h, List.mem_cons, ih]
      tauto

theorem insertD_perm (x : α × Nat) (ys : List (α × Nat)) :
    (insertD x ys).Perm (x :: ys) := by
  induction ys with
  | nil => simp [insertD]
  | cons y ys ih =>
    by_cases h : y.2 ≤ x.2
    · simp [insertD, if_pos h]
    · have hrw : insertD x (y :: ys) = y :: insertD x ys := by simp [insertD, if_neg h]
      rw [hrw]
      exact (ih.cons y).trans (List.Perm.swap x y ys)

theorem sortDesc_perm (l : List (α × Nat)) : (sortDesc l).Perm l := by
  induction l with
  | nil => simp [sortDesc]
  | cons x xs ih => exact ((insertD_perm x (sortDesc xs)).trans (ih.cons x))

theorem insertD_sorted (x : α × Nat) (ys : List (α × Nat))
    (h : ys.Pairwise fun p q => q.2 ≤ p.2) :
    (insertD x ys).Pairwise fun p q => q.2 ≤ p.2 := by
  induction ys with
  | nil => simp [insertD]
  | cons y ys ih =>
    rcases List.pairwise_cons.mp h with ⟨hy, hys⟩
    by_cases hle : y.2 ≤ x.2
    · have hrw : insertD x (y :: ys) = x :: y :: ys := by simp [insertD, if_pos hle]
      rw [hrw]
      refine List.Pairwise.cons ?_ h
      intro q hq
      rcases List.mem_cons.mp hq with rfl | hq
      · exact hle
      · exact le_trans (hy q hq) hle
    · have hrw : insertD x (y :: ys) = y :: insertD x ys := by simp [insertD, if_neg hle]
      rw [hrw]
      refine List.Pairwise.cons ?_ (ih hys)
      intro q hq
      rcases (insertD_mem x ys q).mp hq with rfl | hq
      · omega
      · exact hy q hq

theorem sortDesc_sorted (l : List (α × Nat)) :
    (sortDesc l).Pairwise fun p q => q.2 ≤ p.2 := by
  induction l with
  | nil => simp [sortDesc]
  | cons x xs ih => exact insertD_sorted x (sortDesc xs) ih

theorem insertD_stable (R : (α × Nat) → (α × Nat) → Prop) (x : α × Nat) (ys : List (α × Nat))
    (h1 : ys.Pairwise fun p q => p.2 = q.2 → R p q) (h2 : ∀ y ∈ ys, R x y) :
    (insertD x ys).Pairwise fun p q => p.2 = q.2 → R p q := by
  induction ys with
  | nil => simp [insertD]
  | cons y ys ih =>
    rcases List.pairwise_cons.mp h1 with ⟨hy, hys⟩
    by_cases hle : y.2 ≤ x.2
    · have hrw : insertD x (y :: ys) = x :: y :: ys := by simp [insertD, if_pos hle]
      rw [hrw]
      refine List.Pairwise.cons ?_ h1
      intro q hq _
      exact h2 q hq
    · have hrw : insertD x (y :: ys) = y :: insertD x ys := by simp [insertD, if_neg hle]
      rw [hrw]
      refine List.Pairwise.cons ?_ (ih hys (fun y hy' => h2 y (List.mem_cons_of_mem _ hy')))
      intro q hq heq
      rcases (insertD_mem x ys q).mp hq with rfl | hq
      · omega
      · exact hy q hq heq

theorem sortDesc_stable (R : (α × Nat) → (α × Nat) → Prop) (l : List (α × Nat))
    (h : l.Pairwise R) :
    (sortDesc l).Pairwise fun p q => p.2 = q.2 → R p q := by
  induction l with
  | nil => simp [sortDesc]
  | cons x xs ih =>
    rcases List.pairwise_cons.mp h with ⟨hx, hxs⟩
    refine insertD_stable R x (sortDesc xs) (ih hxs) ?_
    intro y hy
    exact hx y ((sortDesc_perm xs).mem_iff.mp hy)

theorem tally_pairwise_firstIdx (vs : List α) :
    (tally vs).Pairwise fun p q => firstIdx p.1 vs < firstIdx q.1 vs := by
  have hkeys : (tally vs).map Prod.fst = newKeys ([] : List α) vs := by
    simpa using tally_keys vs []
  have h := newKeys_firstIdx vs []
  rw [← hkeys] at h
  exact List.Pairwise.of_map Prod.fst (fun _ _ hab => hab) h

theorem sortDesc_tally_mem (vs : List α) (p : α × Nat) (hp : p ∈ sortDesc (tally vs)) :
    p ∈ tally vs := (sortDesc_perm (tally vs)).mem_iff.mp hp

/-- C4. For every list of video identifiers, get_top_doc tallies one vote per
appearance, orders identifiers by descending vote count with ties broken by
first appearance in the list (stable sort over insertion order), returns
identifiers occurring in the input, and on the concrete metadata
[x_interval_0.mp4, y.mp4, x_interval_0.mp4] with top_n = 1 the winner is
x_interval_0.mp4. -/
theorem get_top_doc_vote_ranking (top_n : Nat) (videos : List α) :
    ((get_top_doc top_n videos).Pairwise fun a b =>
        countOcc b videos ≤ countOcc a videos ∧
          (countOcc a videos = countOcc b videos → firstIdx a videos < firstIdx b videos))
    ∧ (∀ a ∈ get_top_doc top_n videos, a ∈ videos)
    ∧ get_top_doc 1 ["x_interval_0.mp4".toList, "y.mp4".toList, "x_interval_0.mp4".toList]
        = ["x_interval_0.mp4".toList] := by
  refine ⟨?_, ?_, by decide⟩
  · have hsorted := sortDesc_sorted (tally videos)
    have hstable := sortDesc_stable _ (tally videos) (tally_pairwise_firstIdx videos)
    have hboth := hsorted.and hstable
    have hcount : (sortDesc (tally videos)).Pairwise fun p q =>
        countOcc q.1 videos ≤ countOcc p.1 videos ∧
          (countOcc p.1 videos = countOcc q.1 videos →
            firstIdx p.1 videos < firstIdx q.1 videos) := by
      refine hboth.imp_of_mem ?_
      intro p q hp hq hpq
      have hpc := tally_mem_count videos p (sortDesc_tally_mem videos p hp)
      have hqc := tally_mem_count videos q (sortDesc_tally_mem videos q hq)
      rw [← hpc, ← hqc]
      exact ⟨hpq.1, fun h => hpq.2 h⟩
    have hmap : ((sortDesc (tally videos)).map Prod.fst).Pairwise fun a b =>
        countOcc b videos ≤ countOcc a videos ∧
          (countOcc a videos = countOcc b videos → firstIdx a videos < firstIdx b videos) :=
      List.Pairwise.map Prod.fst (fun _ _ hab => hab) hcount
    exact hmap.sublist (List.take_sublist _ _)
  · intro a ha
    have ha' : a ∈ (sortDesc (tally videos)).map Prod.fst := List.mem_of_mem_take ha
    rcases List.mem_map.mp ha' with ⟨p, hp, rfl⟩
    have hpt : p ∈ tally videos := sortDesc_tally_mem videos p hp
    have : p.1 ∈ (tally videos).map Prod.fst := List.mem_map_of_mem Prod.fst hpt
    rw [show (tally videos).map Prod.fst = newKeys ([] : List α) videos by
      simpa using tally_keys videos []] at this
    exact newKeys_subset videos [] p.1 this

/-! ## videoqna.py: format_video_name

The two regular expressions of format_video_name are modelled on List Char:

  * re.search of the pattern dot-then-word-chars-to-end succeeds exactly when
    the segment after the last dot of the name is nonempty and consists of
    word characters only; the captured group is that segment.
  * re.sub of the pattern optional-interval-suffix-then-optional-mp4-anchored
    removes, at the leftmost position whose tail matches the pattern, that
    tail (the later empty match at the end of the remaining string replaces
    nothing).

The character classes are modelled over ASCII, which covers every name the
component receives. -/

/-- The regex word character class: letters, digits and the underscore. -/
def isWordChar (c : Char) : Bool := c.isAlphanum || c == '_'

/-- The regex digit class. -/
def isDigitChar (c : Char) : Bool := c.isDigit

/-- Result of re.search of dot-then-word-chars-to-end: the captured extension
of the rightmost (equivalently, only) match, if any. -/
def extractExtension : List Char → Option (List Char)
  | [] => none
  | c :: rest =>
    match extractExtension rest with
    | some e => some e
    | none =>
      if c = '.' ∧ rest ≠ [] ∧ rest.all isWordChar = true then some rest else none

/-- Whether a tail consists of a nonempty digit run optionally followed by
".mp4", consuming the whole tail (the part of the sub pattern after the
literal "_interval_"). -/
def digitsThen (s : List Char) : Bool :=
  s.takeWhile isDigitChar ≠ [] ∧
    (s.dropWhile isDigitChar = [] ∨ s.dropWhile isDigitChar = ".mp4".toList)

/-- Whether a tail matches interval-suffix-then-optional-mp4 entirely. -/
def intervalTail (s : List Char) : Bool :=
  s.take 10 = "_interval_".toList ∧ digitsThen (s.drop 10) = true

/-- Whether a tail matches the full sub pattern
optional-interval-suffix-then-optional-mp4 anchored at the end. -/
def tailInL (s : List Char) : Bool :=
  s = [] ∨ s = ".mp4".toList ∨ intervalTail s = true

/-- The base_name computed by re.sub: the name truncated at the leftmost
position whose tail matches the sub pattern. -/
def base_name : List Char → List Char
  | [] => []
  | c :: rest => if tailInL (c :: rest) = true then [] else c :: base_name rest

/-- The ValueError message raised for a non-mp4 extension. -/
def invalid_extension_msg (ext : List Char) : List Char :=
  "Invalid file extension: .".toList ++ ext ++ ". Only \x27.mp4\x27 is allowed.".toList

/-- format_video_name: reject a non-mp4 extension with a ValueError (modelled
as Except.error carrying the message), otherwise strip the interval / mp4
suffix and append ".mp4". -/
def format_video_name (video_name : List Char) : Except (List Char) (List Char) :=
  match extractExtension video_name with
  | some ext =>
    if ext ≠ "mp4".toList then Except.error (invalid_extension_msg ext)
    else Except.ok (base_name video_name ++ ".mp4".toList)
  | none => Except.ok (base_name video_name ++ ".mp4".toList)

/-- Executable check for a trailing "_interval_" digit suffix covering the
whole string (spec-side helper for stating C8 and C10). -/
def isIntervalOnly (s : List Char) : Bool :=
  s.take 10 = "_interval_".toList ∧ s.drop 10 ≠ [] ∧ (s.drop 10).all isDigitChar = true

/-- Executable check: some tail of the string is "_interval_" followed by a
nonempty digit run reaching the end. -/
def hasTrailingInterval : List Char → Bool
  | [] => false
  | c :: rest => isIntervalOnly (c :: rest) || hasTrailingInterval rest

/-- Removal of the trailing "_interval_" digit suffix (identity when there is
none): truncate at the leftmost position whose tail is "_interval_" plus
digits to the end. -/
def stripTrailingInterval : List Char → List Char
  | [] => []
  | c :: rest => if isIntervalOnly (c :: rest) = true then [] else c :: stripTrailingInterval rest

/-- Executable check that suf is a suffix of s. -/
def endsWithL (suf : List Char) : List Char → Bool
  | [] => suf = []
  | c :: rest => (c :: rest = suf) ∨ endsWithL suf rest

theorem extractExtension_append (l m : List Char) (e : List Char)
    (h : extractExtension m = some e) : extractExtension (l ++ m) = some e := by
  induction l with
  | nil => simpa using h
  | cons c l ih => simp [extractExtension, ih]

theorem all_takeWhile_eq_self (p : Char → Bool) (l : List Char)
    (h : l.all p = true) : l.takeWhile p = l := by
  induction l with
  | nil => rfl
  | cons c l ih =>
    simp only [List.all_cons, Bool.and_eq_true] at h
    simp [List.takeWhile, h.1, ih h.2]

theorem all_dropWhile_eq_nil (p : Char → Bool) (l : List Char)
    (h : l.all p = true) : l.dropWhile p = [] := by
  induction l with
  | nil => rfl
  | cons c l ih =>
    simp only [List.all_cons, Bool.and_eq_true] at h
    simp [List.dropWhile, h.1, ih h.2]

theorem intervalTail_decomp (s : List Char) (h : intervalTail s = true) :
    ∃ ds rest, s = "_interval_".toList ++ ds ++ rest ∧ ds ≠ [] ∧
      ds.all isDigitChar = true ∧ (rest = [] ∨ rest = ".mp4".toList) := by
  simp only [intervalTail, decide_eq_true_eq] at h
  obtain ⟨h10, hdt⟩ := h
  simp only [digitsThen, decide_eq_true_eq] at hdt
  refine ⟨(s.drop 10).takeWhile isDigitChar, (s.drop 10).dropWhile isDigitChar, ?_, hdt.1, ?_, hdt.2⟩
  · conv_lhs => rw [← List.take_append_drop 10 s]
    rw [h10, List.append_assoc, List.takeWhile_append_dropWhile]
  · rw [List.all_eq_true]
    intro x hx
    exact List.mem_takeWhile_imp hx

theorem isIntervalOnly_of_eq (b ds : List Char) (h : b = "_interval_".toList ++ ds)
    (hne : ds ≠ []) (hdig : ds.all isDigitChar = true) : isIntervalOnly b = true := by
  subst h
  have hlen : ("_interval_".toList).length = 10 := rfl
  simp only [isIntervalOnly, decide_eq_true_eq]
  refine ⟨?_, ?_, ?_⟩
  · rw [← hlen]; exact List.take_left _ _
  · rw [← hlen, List.drop_left]; exact hne
  · rw [← hlen, List.drop_left]; exact hdig

theorem isIntervalOnly_intervalTail (s : List Char) (h : isIntervalOnly s = true) :
    intervalTail s = true := by
  simp only [isIntervalOnly, decide_eq_true_eq] at h
  simp only [intervalTail, decide_eq_true_eq]
  refine ⟨h.1, ?_⟩
  simp only [digitsThen, decide_eq_true_eq]
  rw [all_takeWhile_eq_self _ _ h.2.2, all_dropWhile_eq_nil _ _ h.2.2]
  exact ⟨h.2.1, Or.inl rfl⟩

theorem base_name_canonical :
    ∀ base : List Char, hasTrailingInterval base = false →
      base_name (base ++ ".mp4".toList) = base := by
  intro base
  induction base with
  | nil => intro _; rfl
  | cons c b' ih =>
    intro h1
    simp only [hasTrailingInterval, Bool.or_eq_false_iff] at h1
    rw [List.cons_append]
    by_cases htl : tailInL (c :: (b' ++ ".mp4".toList)) = true
    · exfalso
      simp only [tailInL, decide_eq_true_eq] at htl
      rcases htl with heq | heq | hit
      · exact List.cons_ne_nil _ _ heq
      · have := congrArg List.length heq
        simp at this
      · obtain ⟨ds, rest, hs, hne, hdig, hrest⟩ := intervalTail_decomp _ hit
        rcases hrest with rfl | rfl
        · have hdot : '.' ∈ c :: (b' ++ ".mp4".toList) := by
            refine List.mem_cons_of_mem c (List.mem_append_right b' ?_)
            decide
          rw [hs] at hdot
          simp only [List.append_nil, List.mem_append] at hdot
          rcases hdot with hdot | hdot
          · revert hdot; decide
          · have := List.all_eq_true.mp hdig '.' hdot
            revert this; decide
        · have hcan : "_interval_".toList ++ ds = c :: b' := by
            have hs' : ("_interval_".toList ++ ds) ++ ".mp4".toList
                = (c :: b') ++ ".mp4".toList := by
              rw [← hs]
              rfl
            exact List.append_cancel_right hs'
          have hio : isIntervalOnly (c :: b') = true :=
            isIntervalOnly_of_eq _ ds hcan.symm hne hdig
          rw [h1.1] at hio
          exact Bool.false_ne_true hio
    · simp only [base_name, if_neg htl]
      rw [ih h1.2]

/-- C8. The canonicalizer is the identity on already-canonical names: for a
base with no trailing "_interval_" digit suffix and no ".mp4" suffix,
format_video_name on base ++ ".mp4" returns the name unchanged, hence
applying it twice equals applying it once. -/
theorem format_video_name_canonical_fixed (base : List Char)
    (h1 : hasTrailingInterval base = false)
    (h2 : endsWithL ".mp4".toList base = false) :
    format_video_name (base ++ ".mp4".toList) = Except.ok (base ++ ".mp4".toList)
    ∧ (format_video_name (base ++ ".mp4".toList)).bind format_video_name
        = format_video_name (base ++ ".mp4".toList) := by
  have hext : extractExtension (base ++ ".mp4".toList) = some ("mp4".toList) :=
    extractExtension_append base _ _ (by decide)
  have hmain : format_video_name (base ++ ".mp4".toList)
      = Except.ok (base ++ ".mp4".toList) := by
    unfold format_video_name
    rw [hext, base_name_canonical base h1]
    simp
  refine ⟨hmain, ?_⟩
  rw [hmain]
  simp only [Except.bind]
  exact hmain

/-- Witness for C8 at the concrete canonical name "x.mp4". -/
theorem format_video_name_canonical_fixed_witness :
    format_video_name ("x".toList ++ ".mp4".toList) = Except.ok ("x".toList ++ ".mp4".toList)
    ∧ (format_video_name ("x".toList ++ ".mp4".toList)).bind format_video_name
        = format_video_name ("x".toList ++ ".mp4".toList) :=
  format_video_name_canonical_fixed "x".toList (by decide) (by decide)

theorem extractExtension_cons_none (c : Char) (rest : List Char)
    (h : extractExtension (c :: rest) = none) : extractExtension rest = none := by
  cases hr : extractExtension rest with
  | none => rfl
  | some e => rw [extractExtension, hr] at h; exact absurd h (by simp)

theorem stripTrailingInterval_id :
    ∀ s : List Char, hasTrailingInterval s = false → stripTrailingInterval s = s := by
  intro s
  induction s with
  | nil => intro _; rfl
  | cons c rest ih =>
    intro h
    simp only [hasTrailingInterval, Bool.or_eq_false_iff] at h
    simp only [stripTrailingInterval, if_neg (by simp [h.1] : ¬ isIntervalOnly (c :: rest) = true)]
    rw [ih h.2]

theorem base_name_no_ext :
    ∀ name : List Char, extractExtension name = none →
      base_name name = stripTrailingInterval name := by
  intro name
  induction name with
  | nil => intro _; rfl
  | cons c rest ih =>
    intro h
    have hrest : extractExtension rest = none := extractExtension_cons_none c rest h
    by_cases htl : tailInL (c :: rest) = true
    · have hio : isIntervalOnly (c :: rest) = true := by
        simp only [tailInL, decide_eq_true_eq] at htl
        rcases htl with heq | heq | hit
        · exact absurd heq (List.cons_ne_nil _ _)
        · rw [heq] at h
          exact absurd h (by decide)
        · obtain ⟨ds, rest', hs, hne, hdig, hrest'⟩ := intervalTail_decomp _ hit
          rcases hrest' with rfl | rfl
          · rw [List.append_nil] at hs
            exact isIntervalOnly_of_eq _ ds hs hne hdig
          · exfalso
            rw [hs, extractExtension_append _ _ ("mp4".toList) (by decide)] at h
            exact Option.some_ne_none _ h
      simp only [base_name, if_pos htl, stripTrailingInterval, if_pos hio]
    · have hio : isIntervalOnly (c :: rest) = false := by
        by_contra hh
        have hio' : isIntervalOnly (c :: rest) = true := by
          revert hh
          cases isIntervalOnly (c :: rest) <;> simp
        have hit := isIntervalOnly_intervalTail _ hio'
        exact htl (by simp [tailInL, hit])
      simp only [base_name, if_neg htl, stripTrailingInterval,
        if_neg (by simp [hio] : ¬ isIntervalOnly (c :: rest) = true)]
      rw [ih hrest]

/-- C10. On a name with no filename extension the canonicalizer raises no
error: the invalid-extension branch is unreachable, and the result is the
name with the trailing "_interval_" digit suffix stripped (the identity when
there is none) and ".mp4" appended. -/
theorem format_video_name_no_extension (name : List Char)
    (h : extractExtension name = none) :
    format_video_name name = Except.ok (stripTrailingInterval name ++ ".mp4".toList)
    ∧ (hasTrailingInterval name = false → stripTrailingInterval name = name) := by
  constructor
  · unfold format_video_name
    rw [h, base_name_no_ext name h]
  · exact fun hf => stripTrailingInterval_id name hf

/-- Witness for C10 at the concrete extensionless name "x_interval_3". -/
theorem format_video_name_no_extension_witness :
    format_video_name "x_interval_3".toList
        = Except.ok (stripTrailingInterval "x_interval_3".toList ++ ".mp4".toList)
    ∧ (hasTrailingInterval "x_interval_3".toList = false →
        stripTrailingInterval "x_interval_3".toList = "x_interval_3".toList) :=
  format_video_name_no_extension "x_interval_3".toList (by decide)

/-! ## videoqna.py: OpeaVideoReranking.invoke

Metadata entries are modelled with the two fields the component reads; the
timestamp is an opaque numeric payload (no arithmetic is performed on it).
The HTTPException raised by invoke is modelled as an error value carrying the
status code and the detail string. -/

structure VideoMetadata where
  video : List Char
  timestamp : Int

structure SearchedMultimodalDoc where
  initial_query : String
  metadata : List VideoMetadata
  top_n : Nat

structure LVMVideoDoc where
  video_url : List Char
  prompt : String
  chunk_start : Option Int
  chunk_duration : Nat
  max_new_tokens : Nat

structure HTTPError where
  status_code : Nat
  detail : List Char

/-- find_timestamp_from_video: the timestamp of the first metadata entry whose
video field equals the given video, None when there is no match. -/
def find_timestamp_from_video (metadata_list : List VideoMetadata) (video : List Char) :
    Option Int :=
  (metadata_list.find? fun m => m.video = video).map VideoMetadata.timestamp

/-- The FILE_SERVER_ENDPOINT default (no trailing slash, so the rstrip of the
code is the identity on it). -/
def file_server_endpoint : String := "http://0.0.0.0:6005"

/-- The CHUNK_DURATION default. -/
def chunk_duration : Nat := 10

/-- OpeaVideoReranking.invoke.  The IndexError raised by selecting the first
element of an empty top list is caught by the generic handler (HTTP 500 with
a fixed detail); the ValueError of format_video_name maps to HTTP 400 with
the error message as detail. -/
def opea_video_reranking_invoke (input : SearchedMultimodalDoc) :
    Except HTTPError LVMVideoDoc :=
  match get_top_doc input.top_n (input.metadata.map VideoMetadata.video) with
  | [] => Except.error ⟨500, "An unexpected error occurred.".toList⟩
  | winner :: _ =>
    let timestamp := find_timestamp_from_video input.metadata winner
    match format_video_name winner with
    | Except.error msg => Except.error ⟨400, msg⟩
    | Except.ok formatted =>
      Except.ok
        { video_url := file_server_endpoint.toList ++ '/' :: formatted
          prompt := input.initial_query
          chunk_start := timestamp
          chunk_duration := chunk_duration
          max_new_tokens := 512 }

/-- C7. When top_n is zero or the metadata list is empty, the top list is
empty, selecting its first element fails, and invoke reports the generic
HTTP 500 error with detail "An unexpected error occurred." rather than a
client error or a result. -/
theorem rerank_empty_results_server_error (input : SearchedMultimodalDoc)
    (h : input.top_n = 0 ∨ input.metadata = []) :
    opea_video_reranking_invoke input
      = Except.error ⟨500, "An unexpected error occurred.".toList⟩ := by
  have htop : get_top_doc input.top_n (input.metadata.map VideoMetadata.video) = [] := by
    rcases h with h | h
    · rw [h]
      simp [get_top_doc]
    · rw [h]
      cases htn : input.top_n <;> simp [get_top_doc, tally, sortDesc]
  unfold opea_video_reranking_invoke
  rw [htop]

/-- Witness for C7 at a concrete input with top_n = 0. -/
theorem rerank_empty_results_server_error_witness :
    opea_video_reranking_invoke ⟨"q", [⟨"a.mp4".toList, 1⟩], 0⟩
      = Except.error ⟨500, "An unexpected error occurred.".toList⟩ :=
  rerank_empty_results_server_error ⟨"q", [⟨"a.mp4".toList, 1⟩], 0⟩ (Or.inl rfl)

/-- C5. Whenever the winning video name carries a filename extension other
than mp4, invoke fails with an HTTP 400 client error whose message contains
"Invalid file extension" and returns no descriptor. -/
theorem rerank_invalid_extension_client_error (input : SearchedMultimodalDoc)
    (winner : List Char) (others : List (List Char)) (ext : List Char)
    (h1 : get_top_doc input.top_n (input.metadata.map VideoMetadata.video)
        = winner :: others)
    (h2 : extractExtension winner = some ext)
    (h3 : ext ≠ "mp4".toList) :
    ∃ msg, opea_video_reranking_invoke input = Except.error ⟨400, msg⟩
      ∧ ∃ pre post, pre ++ "Invalid file extension".toList ++ post = msg := by
  have hfmt : format_video_name winner = Except.error (invalid_extension_msg ext) := by
    unfold format_video_name
    rw [h2]
    have h3' : ¬ ext = ['m', 'p', '4'] := fun hh => h3 (by simpa using hh)
    simp [h3']
  refine ⟨invalid_extension_msg ext, ?_, ?_⟩
  · unfold opea_video_reranking_invoke
    rw [h1]
    simp [hfmt]
  · refine ⟨[], ": .".toList ++ ext ++ ". Only \x27.mp4\x27 is allowed.".toList, ?_⟩
    simp only [invalid_extension_msg, List.nil_append, ← List.append_assoc]
    rfl

/-- Witness for C5 at the concrete metadata entry "clip.avi". -/
theorem rerank_invalid_extension_client_error_witness :
    ∃ msg, opea_video_reranking_invoke ⟨"q", [⟨"clip.avi".toList, 2⟩], 1⟩
        = Except.error ⟨400, msg⟩
      ∧ ∃ pre post, pre ++ "Invalid file extension".toList ++ post = msg :=
  rerank_invalid_extension_client_error ⟨"q", [⟨"clip.avi".toList, 2⟩], 1⟩
    "clip.avi".toList [] "avi".toList (by decide) (by decide) (by decide)

/-! ## tgi_llm.py: stream_generator

A chunk is modelled by its serialized payload (the value of
model_dump_json() the loop compares and emits), so the upstream is a list of
payload strings and the output the list of emitted server-sent-event
frames. -/

/-- One emitted frame for a chunk payload. -/
def sse_frame (chunk : String) : String := "data: " ++ chunk ++ "\n\n"

/-- The final frame. -/
def sse_done : String := "data: [DONE]\n\n"

/-- The loop body of stream_generator: emit a frame per chunk unless the
payload is one of the two end-of-stream sentinels. -/
def stream_frames : List String → List String
  | [] => []
  | chunk :: rest =>
    if chunk = "<|im_end|>" ∨ chunk = "<|endoftext|>" then stream_frames rest
    else sse_frame chunk :: stream_frames rest

/-- stream_generator: the frames of the loop followed by the final
data: [DONE] frame. -/
def stream_generator (chunks : List String) : List String :=
  stream_frames chunks ++ [sse_done]

/-- C3. The streamed event sequence is one data frame per upstream chunk in
order, except that the two sentinel payloads are suppressed, and it always
ends with the data: [DONE] frame; in particular on chunks [A, im_end, B] the
frames are data: A, data: B, data: [DONE]. -/
theorem stream_generator_frames (chunks : List String) :
    stream_generator chunks =
      (chunks.filter fun c => ¬ (c = "<|im_end|>" ∨ c = "<|endoftext|>")).map sse_frame
        ++ [sse_done]
    ∧ stream_generator ["A", "<|im_end|>", "B"] = [sse_frame "A", sse_frame "B", sse_done] := by
  constructor
  · unfold stream_generator
    congr 1
    induction chunks with
    | nil => rfl
    | cons c rest ih =>
      by_cases h : c = "<|im_end|>" ∨ c = "<|endoftext|>"
      · rcases h with rfl | rfl <;> simp [stream_frames, ih]
      · have hn1 : ¬ c = "<|im_end|>" := fun hh => h (Or.inl hh)
        have hn2 : ¬ c = "<|endoftext|>" := fun hh => h (Or.inr hh)
        simp [stream_frames, hn1, hn2, ih]
  · rfl

/-! ## tgi_llm.py: TGILLM.align_input and the chat-message step of invoke

A langchain PromptTemplate is modelled abstractly: the extracted
input_variables list together with one rendering function per calling shape
used by the code (format with question and context, with question only, with
context only).  Message content is a sum type because line 200 of the code
inserts the PromptTemplate object itself (not a rendered string) as content.
Log calls are modelled by a list of emitted log events. -/

structure PromptTemplate where
  input_variables : List String
  formatQC : String → String → String
  formatQ : String → String
  formatC : String → String

inductive TGILogEvent where
  | llmParamsTemplateNotUsed
  | chatListTemplateNotUsed
deriving DecidableEq

inductive MsgContent where
  | str (s : String)
  | tmplObj (t : PromptTemplate)

structure ChatMessage where
  role : String
  content : MsgContent

structure LLMParamsDoc where
  model : String
  query : String
  documents : List String
  max_tokens : Nat
  top_p : Int
  temperature : Int
  frequency_penalty : Int
  streaming : Bool

/-- The synthesized ChatCompletionRequest of the LLMParamsDoc branch (its
messages field is the prompt string there). -/
structure ChatCompletionRequest where
  messages : String
  max_tokens : Nat
  top_p : Int
  stream : Bool
  frequency_penalty : Int
  temperature : Int

/-- The "\n".join of Python on a list of strings. -/
def joinNL : List String → String
  | [] => ""
  | [d] => d
  | d :: rest => d ++ "\n" ++ joinNL rest

/-- The check sorted(input_variables) == ["context", "question"]: comparing
the sorted list with a fixed two-element list holds exactly for the two
orderings of those two variables. -/
def is_question_context (vars : List String) : Bool :=
  vars = ["context", "question"] ∨ vars = ["question", "context"]

/-- Modelled from the spec: ChatTemplate.generate_rag_prompt (defined in
integrations/template.py, which is not among the sources) combines the query,
the joined retrieved documents and the model name into the default
retrieval-augmented prompt.  Its exact text is irrelevant to every claim; a
fixed concrete combination stands in for it. -/
def generate_rag_prompt (query : String) (docs : List String) (model : String) : String :=
  "### Search results: " ++ joinNL docs ++ " ### Question: " ++ query ++ " ### Model: " ++ model

/-- The LLMParamsDoc branch of TGILLM.align_input: resolve the prompt from
the optional template, then synthesize the unified request, carrying the
generation parameters over from the input.  Returns the prompt, the emitted
log events and the synthesized request. -/
def align_input_llm_params (input : LLMParamsDoc) (prompt_template : Option PromptTemplate) :
    String × List TGILogEvent × ChatCompletionRequest :=
  let pl : String × List TGILogEvent :=
    match prompt_template with
    | some t =>
      if is_question_context t.input_variables then
        (t.formatQC input.query (joinNL input.documents), [])
      else if t.input_variables = ["question"] then
        (t.formatQ input.query, [])
      else
        (input.query, [TGILogEvent.llmParamsTemplateNotUsed])
    | none =>
      if input.documents.isEmpty then (input.query, [])
      else (generate_rag_prompt input.query input.documents input.model, [])
  (pl.1, pl.2,
    { messages := pl.1
      max_tokens := input.max_tokens
      top_p := input.top_p
      stream := input.streaming
      frequency_penalty := input.frequency_penalty
      temperature := input.temperature })

/-- C6. With a supplied template whose variable set is exactly question and
context, the prompt is the template rendered with question = the input query
and context = the newline-joined documents; in particular the context for
documents ["a", "b"] is "a\nb". -/
theorem align_question_context_prompt (input : LLMParamsDoc) (t : PromptTemplate)
    (h : is_question_context t.input_variables = true) :
    (align_input_llm_params input (some t)).1
        = t.formatQC input.query (joinNL input.documents)
    ∧ joinNL ["a", "b"] = "a\nb" := by
  constructor
  · unfold align_input_llm_params
    simp [h]
  · rfl

/-- Witness for C6 at a concrete input and template. -/
theorem align_question_context_prompt_witness :
    (align_input_llm_params
        ⟨"m", "q", ["a", "b"], 16, 1, 1, 0, false⟩
        (some ⟨["question", "context"], fun q c => q ++ "|" ++ c, fun q => q, fun c => c⟩)).1
      = PromptTemplate.formatQC
          ⟨["question", "context"], fun q c => q ++ "|" ++ c, fun q => q, fun c => c⟩
          (LLMParamsDoc.query ⟨"m", "q", ["a", "b"], 16, 1, 1, 0, false⟩)
          (joinNL (LLMParamsDoc.documents ⟨"m", "q", ["a", "b"], 16, 1, 1, 0, false⟩))
    ∧ joinNL ["a", "b"] = "a\nb" :=
  align_question_context_prompt ⟨"m", "q", ["a", "b"], 16, 1, 1, 0, false⟩
    ⟨["question", "context"], fun q c => q ++ "|" ++ c, fun q => q, fun c => c⟩ (by decide)

/-- C9. The synthesized ChatCompletionRequest of the LLMParamsDoc branch
carries max_tokens, top_p, temperature, frequency_penalty and the streaming
flag over from the input unchanged, for every input and template. -/
theorem align_params_carried_unchanged (input : LLMParamsDoc)
    (prompt_template : Option PromptTemplate) :
    (align_input_llm_params input prompt_template).2.2.max_tokens = input.max_tokens
    ∧ (align_input_llm_params input prompt_template).2.2.top_p = input.top_p
    ∧ (align_input_llm_params input prompt_template).2.2.temperature = input.temperature
    ∧ (align_input_llm_params input prompt_template).2.2.frequency_penalty
        = input.frequency_penalty
    ∧ (align_input_llm_params input prompt_template).2.2.stream = input.streaming :=
  ⟨rfl, rfl, rfl, rfl, rfl⟩

/-- Executable check that pat is an initial segment of a character list. -/
def isPrefixL : List Char → List Char → Bool
  | [], _ => true
  | _ :: _, [] => false
  | p :: ps, c :: cs => p = c ∧ isPrefixL ps cs = true

/-- Executable check that pat occurs as a contiguous segment of a character
list. -/
def containsSub (pat : List Char) : List Char → Bool
  | [] => pat = []
  | c :: rest => isPrefixL pat (c :: rest) || containsSub pat rest

/-- Whether a string contains the literal context placeholder (the membership
test of line 185). -/
def contains_context_placeholder (s : String) : Bool :=
  containsSub "\x7bcontext\x7d".toList s.toList

/-- The chat-message normalization step of TGILLM.invoke (lines 184 to 200)
for a ChatCompletionRequest with non-string messages: when the first message
is a system message whose content holds the context placeholder, the code
formats the content with the joined documents (or the empty string) but
discards the result, leaving the messages unchanged; when the first message
is not a system message and a template was supplied, the code renders it when
its variable list is exactly context, logs otherwise, and in both cases
inserts a system message at position 0 (the logged case inserts the raw
PromptTemplate object as content).  Index and type errors of the Python code
are modelled as Except.error. -/
def chat_messages_step (messages : List ChatMessage) (documents : Option (List String))
    (prompt_template : Option PromptTemplate) :
    Except String (List ChatMessage × List TGILogEvent) :=
  match messages with
  | [] => Except.error "IndexError"
  | first :: rest =>
    if first.role = "system" then
      match first.content with
      | MsgContent.str c =>
        if contains_context_placeholder c then
          -- lines 187 and 189 call content.format but never assign the
          -- result, so both documents cases leave the message list unchanged
          Except.ok (first :: rest, [])
        else Except.ok (first :: rest, [])
      | MsgContent.tmplObj _ => Except.error "TypeError"
    else
      match prompt_template with
      | some t =>
        if t.input_variables = ["context"] then
          match documents with
          | some docs =>
            Except.ok
              (⟨"system", MsgContent.str (t.formatC (joinNL docs))⟩ :: first :: rest, [])
          | none => Except.error "TypeError"
        else
          Except.ok (⟨"system", MsgContent.tmplObj t⟩ :: first :: rest,
            [TGILogEvent.chatListTemplateNotUsed])
      | none => Except.ok (first :: rest, [])

/-- C1 (behavior of the code at the failing input). For a direct request
whose first message is a system message containing the context placeholder
and whose documents are ["d1", "d2"], the step returns the messages exactly
unchanged, the content still being the literal placeholder text, which
differs from the substituted content the claim requires. -/
theorem chat_system_context_format_discarded :
    chat_messages_step [⟨"system", MsgContent.str "Context: \x7bcontext\x7d"⟩]
        (some ["d1", "d2"]) none
      = Except.ok ([⟨"system", MsgContent.str "Context: \x7bcontext\x7d"⟩], [])
    ∧ "Context: \x7bcontext\x7d" ≠ "Context: d1\nd2" :=
  ⟨rfl, by decide⟩

/-- C2 (behavior of the code at the failing input). For a direct request
with a non-system first message and a template whose variable list is not
["context"], the step logs the template-not-used event but still inserts a
system message carrying the raw template object, so the resulting messages
differ from the untemplated ones. -/
theorem chat_template_mismatch_inserts_raw_template :
    chat_messages_step [⟨"user", MsgContent.str "hi"⟩] none
        (some ⟨["foo"], fun q _ => q, fun q => q, fun c => c⟩)
      = Except.ok
          ([⟨"system", MsgContent.tmplObj ⟨["foo"], fun q _ => q, fun q => q, fun c => c⟩⟩,
            ⟨"user", MsgContent.str "hi"⟩],
           [TGILogEvent.chatListTemplateNotUsed])
    ∧ ([⟨"system", MsgContent.tmplObj ⟨["foo"], fun q _ => q, fun q => q, fun c => c⟩⟩,
        ⟨"user", MsgContent.str "hi"⟩] : List ChatMessage)
        ≠ [⟨"user", MsgContent.str "hi"⟩] := by
  refine ⟨rfl, ?_⟩
  intro h
  exact absurd (congrArg List.length h) (by decide)
